import Mathlib

/-!
Verification development for the nexerabackend résumé-optimization engine.

The definitions below are a shallow embedding of the Python modules
`app/discovery/matcher.py`, `app/discovery/deduplicator.py`,
`app/services/ats_service.py`, `app/api/endpoints/ats.py` and
`app/services/pdf_editor.py`.  Python strings are Lean `String`s
(character lists); Python `set`s are `Finset String`; Python ints are
`Int`/`Nat`; float arithmetic the code performs on small integer lengths
and colors is modelled exactly with `ℚ`.  Character classes (`\s`, `\w`,
`[a-zA-Z+#]`) are modelled over the ASCII range the repository's data
uses.
-/

/-! ## Python string primitives -/

/-- Model of a membership test of the needle `s` at the head of `t`
(used to model `str.__contains__`, `str.replace` and `re` scanning). -/
def startsWithL : List Char → List Char → Bool
  | _, [] => true
  | [], _ :: _ => false
  | c :: t, d :: s => c == d && startsWithL t s

/-- Index (counting from `i`) of the first occurrence of `s` in `t`,
scanning left to right, as Python's `str.find` does. -/
def firstOccAux (s : List Char) : List Char → Nat → Option Nat
  | [], i => if startsWithL [] s then some i else none
  | c :: t, i => if startsWithL (c :: t) s then some i else firstOccAux s t (i + 1)

/-- Python's `needle in text` (an empty needle is contained in every text). -/
def pyContains (t s : String) : Bool :=
  (firstOccAux s.data t.data 0).isSome

/-- Start indices of the non-overlapping left-to-right occurrences of a
nonempty needle `s`, scanning from index `i`.  `fuel` bounds the number
of scanning steps; every step consumes at least one character of `t`, so
`fuel = t.length` computes the full scan. -/
def occIdxsAux (s : List Char) : List Char → Nat → Nat → List Nat
  | _, _, 0 => []
  | [], _, _ + 1 => []
  | c :: t, i, fuel + 1 =>
    if startsWithL (c :: t) s then
      i :: occIdxsAux s (List.drop (s.length - 1) t) (i + s.length) fuel
    else
      occIdxsAux s t (i + 1) fuel

/-- Occurrence start indices of `s` in `t` (empty needle: none, matching
`fitz.Page.search_for` which returns no hits for an empty needle). -/
def occIdxs (t s : String) : List Nat :=
  if s.data.isEmpty then [] else occIdxsAux s.data t.data 0 t.data.length

/-- Number of non-overlapping literal occurrences of `s` in `t`. -/
def countOccs (t s : String) : Nat := (occIdxs t s).length

/-- Python's `t.replace(s, r, 1)`: replace the leftmost occurrence only. -/
def replaceFirstL (s r t : List Char) : List Char :=
  match firstOccAux s t 0 with
  | none => t
  | some i => t.take i ++ r ++ t.drop (i + s.length)

/-- String version of `replaceFirstL`. -/
def replaceFirst (t s r : String) : String :=
  ⟨replaceFirstL s.data r.data t.data⟩

/-- Python's `str.strip()` on the character-list level. -/
def pyStripL (l : List Char) : List Char :=
  ((l.dropWhile Char.isWhitespace).reverse.dropWhile Char.isWhitespace).reverse

/-- Python's `str.strip()`. -/
def pyStrip (s : String) : String := ⟨pyStripL s.data⟩

/-- Python's `str.split()` (split on whitespace runs, dropping empties).
`fuel` bounds the scanning steps; every step consumes at least one
character, so `fuel = l.length` computes the full split. -/
def wordsAux : List Char → Nat → List (List Char)
  | _, 0 => []
  | [], _ + 1 => []
  | c :: t, fuel + 1 =>
    if c.isWhitespace then wordsAux t fuel
    else (c :: t.takeWhile (fun d => !d.isWhitespace)) ::
      wordsAux (t.dropWhile (fun d => !d.isWhitespace)) fuel

/-- Python's `str.split()`. -/
def pySplitWs (s : String) : List String :=
  (wordsAux s.data s.data.length).map (fun l => ⟨l⟩)

/-- Python's `str.lower()` on one character (ASCII model). -/
def pyLowerCh (c : Char) : Char :=
  if 'A' ≤ c && c ≤ 'Z' then Char.ofNat (c.toNat + 32) else c

/-- Python's `str.lower()`. -/
def pyLower (s : String) : String := ⟨s.data.map pyLowerCh⟩

/-- Model of `re.sub(r"\s+", " ", s)`: collapse every whitespace run to a
single space.  `fuel` as in `wordsAux`. -/
def collapseWsAux : List Char → Nat → List Char
  | _, 0 => []
  | [], _ + 1 => []
  | c :: t, fuel + 1 =>
    if c.isWhitespace then ' ' :: collapseWsAux (t.dropWhile Char.isWhitespace) fuel
    else c :: collapseWsAux t fuel

/-- Collapse whitespace runs over a full character list. -/
def collapseWsL (l : List Char) : List Char :=
  collapseWsAux l l.length

/-! ## `app/discovery/matcher.py` -/

/-- Word character for `\b` boundaries of Python's `re` (ASCII model). -/
def isWordCh (c : Char) : Bool := c.isAlpha || c.isDigit || c == '_'

/-- Character class `[a-zA-Z+#]` of the tokenizing regex. -/
def isClassCh (c : Char) : Bool := c.isAlpha || c == '+' || c == '#'

/-- Word-ness of an optional character (`none` = outside the string). -/
def isWordOpt : Option Char → Bool
  | none => false
  | some c => isWordCh c

/-- Greedy-with-backtracking choice of the match length for
`\b[a-zA-Z+#]+\b` anchored at the current position: the largest
`k ∈ [1, run.length]` whose end position is a word boundary. -/
def chooseK (run rest : List Char) : Option Nat :=
  (((List.range run.length).map (· + 1)).reverse).find? (fun k =>
    isWordOpt (run.get? (k - 1)) != isWordOpt (if k < run.length then run.get? k else rest.head?))

/-- One scanning loop of `re.findall(r"\b[a-zA-Z+#]+\b", text)`:
`prev` is the character before the current position, `fuel` bounds the
number of scanning steps (each step consumes at least one character, so
`fuel = text.length` computes the full result). -/
def findallAux (prev : Option Char) (l : List Char) (fuel : Nat) : List (List Char) :=
  match fuel with
  | 0 => []
  | fuel + 1 =>
    match l with
    | [] => []
    | c :: t =>
      let run := (c :: t).takeWhile isClassCh
      let rest := (c :: t).dropWhile isClassCh
      if run.isEmpty then findallAux (some c) t fuel
      else if isWordOpt prev == isWordOpt (some c) then findallAux (some c) t fuel
      else
        match chooseK run rest with
        | none => findallAux (some c) t fuel
        | some k =>
          run.take k :: findallAux (run.get? (k - 1)) ((c :: t).drop k) fuel

/-- `re.findall(r"\b[a-zA-Z+#]+\b", s)`. -/
def pyFindall (s : String) : List String :=
  (findallAux none s.data s.data.length).map (fun l => ⟨l⟩)

/-- `TECH_KEYWORDS` from `app/discovery/matcher.py`. -/
def TECH_KEYWORDS : Finset String :=
  (["python", "java", "javascript", "typescript", "react", "angular", "vue",
    "node", "nodejs", "django", "flask", "fastapi", "spring", "springboot",
    "aws", "azure", "gcp", "cloud", "docker", "kubernetes", "k8s", "devops",
    "ci/cd", "jenkins", "git", "github", "gitlab", "sql", "mysql", "postgresql",
    "mongodb", "redis", "elasticsearch", "kafka", "rabbitmq", "graphql", "rest",
    "api", "microservices", "machine", "learning", "ml", "ai", "artificial",
    "intelligence", "deep", "neural", "tensorflow", "pytorch", "nlp", "data",
    "analytics", "science", "scientist", "engineer", "developer", "frontend",
    "backend", "fullstack", "full-stack", "mobile", "android", "ios", "flutter",
    "react-native", "kotlin", "swift", "go", "golang", "rust", "c++", "scala",
    "hadoop", "spark", "airflow", "tableau", "powerbi", "sre", "reliability",
    "intern", "internship", "fresher", "graduate", "trainee", "associate"]).toFinset

/-- `calculate_match_score` from `app/discovery/matcher.py`.  The
`user_keywords` parameter is `Option` to model the Python default
`user_keywords=None` (replaced by `[]` inside the function); the
`job_description` default is the empty string at call sites. -/
def calculate_match_score (job_title : String) (job_description : String)
    (user_keywords : Option (List String)) : Int :=
  let kws := user_keywords.getD []
  let user_keyword_set : Finset String := (kws.map pyLower).toFinset
  let combined_text := pyLower (job_title ++ " " ++ job_description)
  let job_words : Finset String := (pyFindall combined_text).toFinset
  let matching_keywords := user_keyword_set ∩ job_words
  let tech_matches := matching_keywords ∩ TECH_KEYWORDS
  let score1 : Int := (matching_keywords.card : Int) * 10 + (tech_matches.card : Int) * 5
  let title_words : Finset String := (pySplitWs (pyLower job_title)).toFinset
  let title_matches := user_keyword_set ∩ title_words
  let score2 : Int := score1 + (title_matches.card : Int) * 15
  let intern_keywords : Finset String :=
    (["intern", "internship", "trainee", "fresher", "graduate", "entry"]).toFinset
  let score3 : Int := score2 +
    (if (job_words ∩ intern_keywords).Nonempty ∧ (user_keyword_set ∩ intern_keywords).Nonempty
     then 20 else 0)
  let role_keywords : Finset String :=
    (["developer", "engineer", "architect", "manager", "analyst", "scientist"]).toFinset
  let score4 : Int := score3 +
    (if (job_words ∩ role_keywords).Nonempty ∧ (user_keyword_set ∩ role_keywords).Nonempty
     then 10 else 0)
  min 100 (max 0 score4)

/-! ## `app/discovery/deduplicator.py` -/

/-- The local `normalize` of `generate_dedupe_hash`: lowercase, strip,
then collapse internal whitespace runs to a single space. -/
def pyNormalize (s : String) : String :=
  ⟨collapseWsL (pyStripL (pyLower s).data)⟩

/-- UTF-8 encoding of one character (`str.encode("utf-8")`), each byte a
`Nat < 256`. -/
def encodeUtf8Char (c : Char) : List Nat :=
  let n := c.toNat
  if n < 0x80 then [n]
  else if n < 0x800 then
    [0xC0 ||| (n >>> 6), 0x80 ||| (n &&& 0x3F)]
  else if n < 0x10000 then
    [0xE0 ||| (n >>> 12), 0x80 ||| ((n >>> 6) &&& 0x3F), 0x80 ||| (n &&& 0x3F)]
  else
    [0xF0 ||| (n >>> 18), 0x80 ||| ((n >>> 12) &&& 0x3F),
     0x80 ||| ((n >>> 6) &&& 0x3F), 0x80 ||| (n &&& 0x3F)]

/-- UTF-8 bytes of a string. -/
def utf8Bytes (s : String) : List Nat :=
  s.data.flatMap encodeUtf8Char

/-- 32-bit truncation. -/
def mod32 (x : Nat) : Nat := x % 2 ^ 32

/-- 32-bit rotate right (input assumed `< 2 ^ 32`). -/
def rotr32 (n x : Nat) : Nat := mod32 ((x >>> n) ||| (x <<< (32 - n)))

/-- SHA-256 `Ch`. -/
def sha256Ch (x y z : Nat) : Nat := (x &&& y) ^^^ ((x ^^^ 0xFFFFFFFF) &&& z)

/-- SHA-256 `Maj`. -/
def sha256Maj (x y z : Nat) : Nat := (x &&& y) ^^^ (x &&& z) ^^^ (y &&& z)

/-- SHA-256 big sigma 0. -/
def bigS0 (x : Nat) : Nat := rotr32 2 x ^^^ rotr32 13 x ^^^ rotr32 22 x

/-- SHA-256 big sigma 1. -/
def bigS1 (x : Nat) : Nat := rotr32 6 x ^^^ rotr32 11 x ^^^ rotr32 25 x

/-- SHA-256 small sigma 0. -/
def smallS0 (x : Nat) : Nat := rotr32 7 x ^^^ rotr32 18 x ^^^ (x >>> 3)

/-- SHA-256 small sigma 1. -/
def smallS1 (x : Nat) : Nat := rotr32 17 x ^^^ rotr32 19 x ^^^ (x >>> 10)

/-- The 64 SHA-256 round constants of FIPS 180-4, written in decimal. -/
def sha256K : List Nat :=
  [1116352408, 1899447441, 3049323471, 3921009573, 961987163, 1508970993,
   2453635748, 2870763221, 3624381080, 310598401, 607225278, 1426881987,
   1925078388, 2162078206, 2614888103, 3248222580, 3835390401, 4022224774,
   264347078, 604807628, 770255983, 1249150122, 1555081692, 1996064986,
   2554220882, 2821834349, 2952996808, 3210313671, 3336571891, 3584528711,
   113926993, 338241895, 666307205, 773529912, 1294757372, 1396182291,
   1695183700, 1986661051, 2177026350, 2456956037, 2730485921, 2820302411,
   3259730800, 3345764771, 3516065817, 3600352804, 4094571909, 275423344,
   430227734, 506948616, 659060556, 883997877, 958139571, 1322822218,
   1537002063, 1747873779, 1955562222, 2024104815, 2227730452, 2361852424,
   2428436474, 2756734187, 3204031479, 3329325298]

/-- SHA-256 working state (eight 32-bit words). -/
structure Hash8 where
  a : Nat
  b : Nat
  c : Nat
  d : Nat
  e : Nat
  f : Nat
  g : Nat
  h : Nat

/-- The SHA-256 initial hash value of FIPS 180-4, written in decimal. -/
def sha256H0 : Hash8 :=
  ⟨1779033703, 3144134277, 1013904242, 2773480762,
   1359893119, 2600822924, 528734635, 1541459225⟩

/-- Extend a 16-word block by `n` further message-schedule words. -/
def extendW (w : List Nat) : Nat → List Nat
  | 0 => w
  | n + 1 =>
    extendW (w ++ [mod32 (smallS1 (w.getD (w.length - 2) 0) + w.getD (w.length - 7) 0 +
      smallS0 (w.getD (w.length - 15) 0) + w.getD (w.length - 16) 0)]) n

/-- One SHA-256 compression round. -/
def sha256Round (s : Hash8) (kw : Nat × Nat) : Hash8 :=
  let t1 := mod32 (s.h + bigS1 s.e + sha256Ch s.e s.f s.g + kw.1 + kw.2)
  let t2 := mod32 (bigS0 s.a + sha256Maj s.a s.b s.c)
  ⟨mod32 (t1 + t2), s.a, s.b, s.c, mod32 (s.d + t1), s.e, s.f, s.g⟩

/-- Compress one 512-bit block (sixteen 32-bit words) into the state. -/
def sha256Block (h : Hash8) (block : List Nat) : Hash8 :=
  let w := extendW block 48
  let s := (sha256K.zip w).foldl sha256Round h
  ⟨mod32 (h.a + s.a), mod32 (h.b + s.b), mod32 (h.c + s.c), mod32 (h.d + s.d),
   mod32 (h.e + s.e), mod32 (h.f + s.f), mod32 (h.g + s.g), mod32 (h.h + s.h)⟩

/-- Big-endian 64-bit byte encoding of a length. -/
def be64 (n : Nat) : List Nat :=
  (List.range 8).map (fun i => (n >>> (56 - 8 * i)) % 256)

/-- Group bytes into big-endian 32-bit words. -/
def bytesToWords : List Nat → List Nat
  | b0 :: b1 :: b2 :: b3 :: rest =>
    ((b0 <<< 24) ||| (b1 <<< 16) ||| (b2 <<< 8) ||| b3) :: bytesToWords rest
  | _ => []

/-- Split a word list into 16-word blocks (`fuel` bounds the number of
blocks; `fuel = ws.length` always suffices). -/
def wordBlocksAux : List Nat → Nat → List (List Nat)
  | _, 0 => []
  | [], _ + 1 => []
  | w :: ws, fuel + 1 => ((w :: ws).take 16) :: wordBlocksAux ((w :: ws).drop 16) fuel

/-- Split a word list into 16-word blocks. -/
def wordBlocks (ws : List Nat) : List (List Nat) :=
  wordBlocksAux ws ws.length

/-- Lowercase hexadecimal digit. -/
def hexDigitCh (n : Nat) : Char :=
  if n < 10 then Char.ofNat (48 + n) else Char.ofNat (87 + n)

/-- Eight-hex-digit rendering of a 32-bit word. -/
def wordToHex (w : Nat) : List Char :=
  (List.range 8).map (fun i => hexDigitCh ((w >>> (28 - 4 * i)) % 16))

/-- `hashlib.sha256(bytes).hexdigest()`. -/
def sha256Hex (msg : List Nat) : String :=
  let bitLen := 8 * msg.length
  let padZeros := (119 - msg.length % 64) % 64
  let padded := msg ++ [0x80] ++ List.replicate padZeros 0 ++ be64 bitLen
  let blocks := wordBlocks (bytesToWords padded)
  let final := blocks.foldl sha256Block sha256H0
  ⟨(([final.a, final.b, final.c, final.d,
      final.e, final.f, final.g, final.h]).map wordToHex).flatten⟩

/-- `generate_dedupe_hash` from `app/discovery/deduplicator.py`. -/
def generate_dedupe_hash (job_title company_name : String) : String :=
  let norm_title := pyNormalize job_title
  let norm_company := pyNormalize company_name
  let unique_string := norm_company ++ "-" ++ norm_title
  sha256Hex (utf8Bytes unique_string)

/-! ## `app/services/ats_service.py` -/

/-- An untrusted replacement suggestion as the dict the generator returns;
`Option` fields model keys that `dict.get` may find missing. -/
structure RawReplacement where
  original : Option String
  replacement : Option String
  context : Option String
  reason : Option String
  max_occurrences : Option Int

/-- A validated replacement dict as appended by
`ATSService._validate_replacements`. -/
structure ValidatedReplacement where
  original : String
  replacement : String
  context : String
  reason : String
  max_occurrences : Int
deriving DecidableEq, Repr

/-- The dict built at the `validated.append` site of
`_validate_replacements` (fields stripped, `max_occurrences` passed
through `min (· , 3)` with default 1). -/
def mkValidated (r : RawReplacement) : ValidatedReplacement :=
  { original := pyStrip (r.original.getD "")
    replacement := pyStrip (r.replacement.getD "")
    context := r.context.getD ""
    reason := r.reason.getD "ATS optimization"
    max_occurrences := min (r.max_occurrences.getD 1) 3 }

/-- One iteration of the `_validate_replacements` loop: `some` when the
candidate is appended, `none` when it is silently dropped. -/
def validateStep (r : RawReplacement) : Option ValidatedReplacement :=
  let original := pyStrip (r.original.getD "")
  let replacement := pyStrip (r.replacement.getD "")
  if original = "" ∨ replacement = "" then none
  else
    let orig_len : ℚ := original.length
    let repl_len : ℚ := replacement.length
    if 0 < orig_len then
      let length_ratio : ℚ := repl_len / orig_len
      if 1 / 2 ≤ length_ratio ∧ length_ratio ≤ 2 then
        if max (pySplitWs original).length (pySplitWs replacement).length ≤ 6 then
          some (mkValidated r)
        else none
      else none
    else none

/-- `ATSService._validate_replacements`. -/
def validate_replacements : List RawReplacement → List ValidatedReplacement
  | [] => []
  | r :: rest =>
    match validateStep r with
    | some v => v :: validate_replacements rest
    | none => validate_replacements rest

/-- The `validated[:10]` slice `ATSService.suggest_replacements` returns
to its caller after validation. -/
def suggest_replacements_validated (rs : List RawReplacement) : List ValidatedReplacement :=
  (validate_replacements rs).take 10

/-! ## `app/api/endpoints/ats.py` (finalization of `apply_replacements`) -/

/-- The score-finalization policy at the end of the `apply_replacements`
endpoint: `boost` is the injected value of `random.randint(8, 15)`. -/
def finalize_optimized_score (original_score raw_optimized boost : Int) : Int :=
  if raw_optimized ≤ original_score then min 95 (original_score + boost)
  else raw_optimized

/-! ## `app/services/pdf_editor.py`

The PyMuPDF document is modelled at the interface the editor uses: a
document is a list of pages; a page owns its extractable text spans
(text, bounding box, font, size, color, flags) plus the drawing and
text-insertion operations the editor has committed onto it.  Geometry is
abstracted to text-index coordinates: `search_for` reports one rectangle
per non-overlapping literal occurrence of the needle in the page's
extracted text, positioned by the occurrence's character index.  Nothing
in the claims depends on the numeric geometry, only on the counting and
page structure. -/

/-- An axis-aligned rectangle `(x0, y0, x1, y1)` (`fitz.Rect`). -/
structure Rect where
  x0 : Int
  y0 : Int
  x1 : Int
  y1 : Int
deriving DecidableEq, Repr

/-- `fitz.Rect.intersects`: the two rectangles share a region. -/
def Rect.intersects (a b : Rect) : Bool :=
  max a.x0 b.x0 < min a.x1 b.x1 && max a.y0 b.y0 < min a.y1 b.y1

/-- A styled text span as `page.get_text("dict")` exposes it. -/
structure Span where
  text : String
  bbox : Rect
  font : String
  size : Int
  color : Nat
  flags : Int
deriving DecidableEq, Repr

/-- A committed `insert_text` operation (overlay text drawn on a page). -/
structure TextInsertion where
  point : Int × Int
  text : String
  fontsize : Int
  fontname : String
  color : ℚ × ℚ × ℚ
deriving DecidableEq, Repr

/-- One PDF page: its extractable span layer plus the cover rectangles
and text overlays the editor has committed. -/
structure Page where
  spans : List Span
  drawings : List Rect
  inserts : List TextInsertion
deriving DecidableEq, Repr

/-- The page's extracted plain text (`page.get_text("text")`), the
concatenation of its span texts in order. -/
def pageText (p : Page) : String :=
  String.join (p.spans.map Span.text)

/-- `page.search_for(needle)`: one rectangle per non-overlapping literal
occurrence of `needle` in the page's text, in document order. -/
def Page.search_for (p : Page) (needle : String) : List Rect :=
  (occIdxs (pageText p) needle).map
    (fun (i : Nat) => ⟨(i : Int), 0, (i : Int) + needle.length, 1⟩)

/-- Font/size/color information returned by `_get_span_at_rect`. -/
structure SpanInfo where
  font : String
  size : Int
  color : ℚ × ℚ × ℚ
  flags : Int
deriving DecidableEq, Repr

/-- `PDFEditor._int_to_rgb`: integer color to an RGB triple in `[0,1]`. -/
def int_to_rgb (color_int : Nat) : ℚ × ℚ × ℚ :=
  if color_int = 0 then (0, 0, 0)
  else (((color_int >>> 16) % 256 : Nat) / 255,
        ((color_int >>> 8) % 256 : Nat) / 255,
        ((color_int % 256 : Nat) : ℚ) / 255)

/-- `PDFEditor._get_span_at_rect`: first span whose bbox intersects the
rectangle, else the default `helv`/11/black. -/
def get_span_at_rect (p : Page) (rect : Rect) : SpanInfo :=
  match p.spans.find? (fun s => rect.intersects s.bbox) with
  | some s => ⟨s.font, s.size, int_to_rgb s.color, s.flags⟩
  | none => ⟨"helv", 11, (0, 0, 0), 0⟩

/-- `PDFEditor._get_pdf_font`: map a font name to a PDF base font by
substring heuristic. -/
def get_pdf_font (font_name : String) : String :=
  let f := pyLower font_name
  if pyContains f "arial" || pyContains f "helvetica" || pyContains f "sans" then "helv"
  else if pyContains f "times" || pyContains f "serif" then "tiro"
  else if pyContains f "courier" || pyContains f "mono" || pyContains f "code" then "cour"
  else if pyContains f "bold" then "hebo"
  else "helv"

/-- The `Replacement` dataclass of `app/services/pdf_editor.py`. -/
structure Replacement where
  original : String
  replacement : String
  context : String
  max_occurrences : Int
  applied : Bool
deriving DecidableEq, Repr

/-- One entry of `PDFEditor.replacements_applied`. -/
structure MutationRecord where
  page : Nat
  original : String
  replacement : String
  rect : Rect
deriving DecidableEq, Repr

/-- The editor's mutable state: the open document, the page count taken
at `__init__`, and the audit list. -/
structure PDFEditorState where
  doc : List Page
  original_page_count : Nat
  replacements_applied : List MutationRecord
deriving DecidableEq, Repr

/-- `PDFEditor.__init__`: open the document and snapshot its page count. -/
def mkEditor (doc : List Page) : PDFEditorState :=
  ⟨doc, doc.length, []⟩

/-- The inner `for rect in text_instances` loop of
`_apply_single_replacement` on one page: covers and redraws each
occurrence until the shared counter reaches `max_occurrences` (the
`break`), threading the page, the counter and the audit list. -/
def applyOnPage (orig new_text : String) (maxOcc : Int) (pageNum : Nat) :
    Page → List Rect → Nat → List MutationRecord →
    Page × Nat × List MutationRecord
  | page, [], count, recs => (page, count, recs)
  | page, rect :: rest, count, recs =>
    if (count : Int) ≥ maxOcc then (page, count, recs)
    else
      let info := get_span_at_rect page rect
      let cover_rect : Rect := ⟨rect.x0 - 1, rect.y0 - 1, rect.x1 + 1, rect.y1 + 1⟩
      let text_point : Int × Int := (rect.x0, rect.y1 - 2)
      let fontname := get_pdf_font info.font
      let page' : Page :=
        { page with
          drawings := page.drawings ++ [cover_rect]
          inserts := page.inserts ++ [⟨text_point, new_text, info.size, fontname, info.color⟩] }
      applyOnPage orig new_text maxOcc pageNum page' rest (count + 1)
        (recs ++ [⟨pageNum, orig, new_text, rect⟩])

/-- The outer page loop of `_apply_single_replacement`: pages in
ascending index order, the occurrence counter shared across pages. -/
def applyOnPages (orig new_text : String) (maxOcc : Int) :
    List Page → Nat → Nat → List MutationRecord →
    List Page × Nat × List MutationRecord
  | [], _, count, recs => ([], count, recs)
  | p :: rest, pageNum, count, recs =>
    let text_instances := p.search_for orig
    let r1 := applyOnPage orig new_text maxOcc pageNum p text_instances count recs
    let r2 := applyOnPages orig new_text maxOcc rest (pageNum + 1) r1.2.1 r1.2.2
    (r1.1 :: r2.1, r2.2.1, r2.2.2)

/-- `PDFEditor._apply_single_replacement`: returns the updated editor
state, the number of occurrences replaced, and the replacement with its
`applied` flag set. -/
def apply_single_replacement (st : PDFEditorState) (r : Replacement) :
    PDFEditorState × Nat × Replacement :=
  let res := applyOnPages r.original r.replacement r.max_occurrences st.doc 0 0
    st.replacements_applied
  ({ st with doc := res.1, replacements_applied := res.2.2 },
   res.2.1,
   { r with applied := res.2.1 > 0 })

/-- `PDFEditor.apply_replacements`: apply each replacement in list order
(the subsequent `doc.save` serializes the document without changing its
pages and is not modelled). -/
def apply_replacements (st : PDFEditorState) : List Replacement → PDFEditorState
  | [] => st
  | r :: rest => apply_replacements (apply_single_replacement st r).1 rest

/-- The dict returned by `PDFEditor.validate_output`
(`replacements_count` is its `replacements_applied` length entry). -/
structure ValidationReport where
  valid : Bool
  original_pages : Nat
  new_pages : Nat
  page_count_unchanged : Bool
  replacements_count : Nat
  details : List MutationRecord
deriving DecidableEq, Repr

/-- `PDFEditor.validate_output`. -/
def validate_output (st : PDFEditorState) : ValidationReport :=
  let new_page_count := st.doc.length
  { valid := new_page_count == st.original_page_count
    original_pages := st.original_page_count
    new_pages := new_page_count
    page_count_unchanged := new_page_count == st.original_page_count
    replacements_count := st.replacements_applied.length
    details := st.replacements_applied }

/-- The `while original in text and count < max_occ` loop of
`preview_text_diff`; `remaining` is `max_occ - count`. -/
def previewLoop (orig repl : String) : String → Nat → String
  | t, 0 => t
  | t, n + 1 =>
    if pyContains t orig then previewLoop orig repl (replaceFirst t orig repl) n
    else t

/-- The per-page replacement pass of `preview_text_diff` (`for r in
replacements`, each with a per-page occurrence counter). -/
def previewOnePage (reps : List Replacement) (page_text : String) : String :=
  reps.foldl
    (fun txt r => previewLoop r.original r.replacement txt r.max_occurrences.toNat)
    page_text

/-- `PDFEditor.preview_text_diff`: returns `(original, modified)`
concatenated over the pages. -/
def preview_text_diff (st : PDFEditorState) (reps : List Replacement) : String × String :=
  st.doc.foldl
    (fun acc p =>
      let page_text := pageText p
      (acc.1 ++ page_text, acc.2 ++ previewOnePage reps page_text))
    ("", "")

/-- Total number of literal occurrences of `orig` across the document,
page by page (the measure the mutation counter is claimed to share). -/
def docOccurrences (doc : List Page) (orig : String) : Nat :=
  (doc.map (fun p => countOccs (pageText p) orig)).sum

/-! ## General lemmas about the string primitives -/

theorem startsWithL_append (s : List Char) : ∀ t : List Char,
    startsWithL t s = true → t = s ++ t.drop s.length := by
  induction s with
  | nil => intro t _; simp
  | cons d s ih =>
    intro t h
    cases t with
    | nil => simp [startsWithL] at h
    | cons c t' =>
      simp only [startsWithL, Bool.and_eq_true, beq_iff_eq] at h
      obtain ⟨rfl, h2⟩ := h
      simpa [List.drop_succ_cons] using congrArg (List.cons c) (ih t' h2)

theorem firstOccAux_spec (s : List Char) : ∀ (t : List Char) (i j : Nat),
    firstOccAux s t i = some j → i ≤ j ∧ startsWithL (t.drop (j - i)) s = true := by
  intro t
  induction t with
  | nil =>
    intro i j h
    simp only [firstOccAux] at h
    split at h
    · cases h; simp [*]
    · cases h
  | cons c t' ih =>
    intro i j h
    simp only [firstOccAux] at h
    split at h
    · cases h; simp [*]
    · have h' := ih (i + 1) j h
      refine ⟨by omega, ?_⟩
      have hd : (c :: t').drop (j - i) = t'.drop (j - (i + 1)) := by
        have : j - i = (j - (i + 1)) + 1 := by omega
        simp [this, List.drop_succ_cons]
      rw [hd]; exact h'.2

theorem occIdxsAux_ne_nil (s : List Char) : ∀ (fuel : Nat) (t : List Char) (i : Nat),
    occIdxsAux s t i fuel ≠ [] → (firstOccAux s t i).isSome := by
  intro fuel
  induction fuel with
  | zero => intro t i h; simp [occIdxsAux] at h
  | succ n ih =>
    intro t i h
    cases t with
    | nil => simp [occIdxsAux] at h
    | cons c t' =>
      by_cases hs : startsWithL (c :: t') s
      · simp [firstOccAux, hs]
      · simp only [occIdxsAux, hs, if_neg, Bool.false_eq_true, not_false_eq_true,
          if_false] at h
        have := ih t' (i + 1) h
        simpa [firstOccAux, hs] using this

theorem countOccs_pos (t s : String) (h : 0 < countOccs t s) :
    s.data ≠ [] ∧ (firstOccAux s.data t.data 0).isSome := by
  unfold countOccs occIdxs at h
  split at h
  · simp at h
  · refine ⟨by simpa [List.isEmpty_iff] using ‹¬s.data.isEmpty›, ?_⟩
    exact occIdxsAux_ne_nil s.data t.data.length t.data 0
      (by intro hnil; rw [hnil] at h; simp at h)

theorem countOccs_pos_pyContains (t s : String) (h : 0 < countOccs t s) :
    pyContains t s = true := by
  unfold pyContains
  exact (countOccs_pos t s h).2

theorem replaceFirst_ne (t s r : String) (h : 0 < countOccs t s) (hne : s ≠ r) :
    replaceFirst t s r ≠ t := by
  obtain ⟨_, hsome⟩ := countOccs_pos t s h
  obtain ⟨j, hj⟩ := Option.isSome_iff_exists.mp hsome
  have hspec := firstOccAux_spec s.data t.data 0 j hj
  have hsw : startsWithL (t.data.drop j) s.data = true := by
    simpa using hspec.2
  have hdecomp : t.data.drop j = s.data ++ t.data.drop (j + s.data.length) := by
    have h1 := startsWithL_append s.data (t.data.drop j) hsw
    rw [List.drop_drop] at h1
    exact h1
  intro heq
  have hdata := congrArg String.data heq
  unfold replaceFirst replaceFirstL at hdata
  rw [hj] at hdata
  simp only at hdata
  conv at hdata => rhs; rw [← List.take_append_drop j t.data, hdecomp]
  rw [List.append_assoc] at hdata
  have hc := List.append_cancel_left hdata
  have hlen2 : r.data.length = s.data.length := by
    have := congrArg List.length hc
    simp only [List.length_append] at this
    omega
  have := (List.append_inj hc hlen2).1
  exact hne (String.ext this.symm)

/-! ## Claims about the scoring, dedup and finalization logic -/

/-- C2: in the finalization step of the `apply_replacements` endpoint,
whenever the injected random draw `b` satisfies `8 ≤ b ≤ 15`, a raw
optimized score at most the original score is overridden with
`min 95 (original + b)`, a larger raw score is kept unchanged, and for
`original = 70` with raw score at most 70 the finalized score lies in
`[78, 85]` and never exceeds 95. -/
theorem finalize_score_policy (original_score raw_optimized b : Int)
    (h8 : 8 ≤ b) (h15 : b ≤ 15) :
    (raw_optimized ≤ original_score →
      finalize_optimized_score original_score raw_optimized b =
        min 95 (original_score + b)) ∧
    (original_score < raw_optimized →
      finalize_optimized_score original_score raw_optimized b = raw_optimized) ∧
    (original_score = 70 → raw_optimized ≤ 70 →
      78 ≤ finalize_optimized_score original_score raw_optimized b ∧
      finalize_optimized_score original_score raw_optimized b ≤ 85 ∧
      finalize_optimized_score original_score raw_optimized b ≤ 95) := by
  unfold finalize_optimized_score
  refine ⟨fun hle => by rw [if_pos hle], fun hlt => by rw [if_neg (by omega)], ?_⟩
  rintro rfl hle
  rw [if_pos hle]
  omega

/-- Witness for C2: the policy applied at `original = 70`, `raw = 65`,
`boost = 8`. -/
theorem finalize_score_policy_witness :
    78 ≤ finalize_optimized_score 70 65 8 ∧
    finalize_optimized_score 70 65 8 ≤ 85 ∧
    finalize_optimized_score 70 65 8 ≤ 95 :=
  (finalize_score_policy 70 65 8 (by norm_num) (by norm_num)).2.2 rfl (by norm_num)

set_option maxRecDepth 10000 in
/-- C5 (counterexample): for keywords `["java", "sql"]` and job title
`"Python SQL backend engineer"` (empty description) the posting
relevance score is not 25 — the claim's arithmetic omits the 5-point
tech-vocabulary bonus for `"sql"`. -/
theorem match_score_example_ne_25 :
    calculate_match_score "Python SQL backend engineer" "" (some ["java", "sql"]) ≠ 25 := by
  decide

set_option maxRecDepth 10000 in
/-- C5 (amended): for keywords `["java", "sql"]` and job title
`"Python SQL backend engineer"` the posting relevance score equals 30:
10 for the intersection word `"sql"`, plus 5 because `"sql"` is in the
tech vocabulary, plus 15 for the title match. -/
theorem match_score_example_eq_30 :
    calculate_match_score "Python SQL backend engineer" "" (some ["java", "sql"]) = 30 := by
  decide

/-- C7: `calculate_match_score` always returns an integer in `[0, 100]`,
and an empty (or absent) keyword list yields exactly 0, never a negative
value. -/
theorem match_score_bounds (job_title job_description : String)
    (user_keywords : Option (List String)) :
    0 ≤ calculate_match_score job_title job_description user_keywords ∧
    calculate_match_score job_title job_description user_keywords ≤ 100 ∧
    calculate_match_score job_title job_description (some []) = 0 ∧
    calculate_match_score job_title job_description none = 0 := by
  refine ⟨?_, ?_, ?_, ?_⟩
  · simp only [calculate_match_score]
    exact le_min (by norm_num) (le_max_left 0 _)
  · simp only [calculate_match_score]
    exact min_le_left _ _
  · simp [calculate_match_score]
  · simp [calculate_match_score]

/-- C8: the dedupe hash is invariant under any change of title and
company that preserves their normalization (lowercase, strip, collapse
internal whitespace runs). -/
theorem dedupe_hash_normalization_invariant (t t' c c' : String)
    (ht : pyNormalize t = pyNormalize t') (hc : pyNormalize c = pyNormalize c') :
    generate_dedupe_hash t c = generate_dedupe_hash t' c' := by
  unfold generate_dedupe_hash
  rw [ht, hc]

/-- Witness for C8: `dedupe_key("Google", "Senior SWE")` equals
`dedupe_key("  google ", "senior   swe")`. -/
theorem dedupe_hash_normalization_invariant_witness :
    pyNormalize "Google" = pyNormalize "  google " ∧
    pyNormalize "Senior SWE" = pyNormalize "senior   swe" ∧
    generate_dedupe_hash "Google" "Senior SWE" =
      generate_dedupe_hash "  google " "senior   swe" :=
  ⟨by decide, by decide,
    dedupe_hash_normalization_invariant _ _ _ _ (by decide) (by decide)⟩

/-! ## Lemmas about the replacement validator -/

theorem validateStep_some (r : RawReplacement) (e : ValidatedReplacement)
    (h : validateStep r = some e) :
    e = mkValidated r ∧
    pyStrip (r.original.getD "") ≠ "" ∧
    pyStrip (r.replacement.getD "") ≠ "" ∧
    (1 / 2 : ℚ) ≤ ((pyStrip (r.replacement.getD "")).length : ℚ) /
      ((pyStrip (r.original.getD "")).length : ℚ) ∧
    ((pyStrip (r.replacement.getD "")).length : ℚ) /
      ((pyStrip (r.original.getD "")).length : ℚ) ≤ 2 ∧
    max (pySplitWs (pyStrip (r.original.getD ""))).length
      (pySplitWs (pyStrip (r.replacement.getD ""))).length ≤ 6 := by
  unfold validateStep at h
  simp only at h
  split_ifs at h with h1 h2 h3 h4
  · cases h
    push_neg at h1
    exact ⟨rfl, h1.1, h1.2, h3.1, h3.2, h4⟩

theorem validate_mem (rs : List RawReplacement) (e : ValidatedReplacement)
    (he : e ∈ validate_replacements rs) :
    ∃ r ∈ rs, validateStep r = some e := by
  induction rs with
  | nil => simp [validate_replacements] at he
  | cons r rest ih =>
    rw [validate_replacements] at he
    cases hv : validateStep r with
    | none =>
      rw [hv] at he
      obtain ⟨r', hr', h'⟩ := ih he
      exact ⟨r', List.mem_cons_of_mem _ hr', h'⟩
    | some v =>
      rw [hv] at he
      rcases List.mem_cons.mp he with rfl | hmem
      · exact ⟨r, List.mem_cons_self _ _, hv⟩
      · obtain ⟨r', hr', h'⟩ := ih hmem
        exact ⟨r', List.mem_cons_of_mem _ hr', h'⟩

theorem validate_sublist (rs : List RawReplacement) :
    List.Sublist (validate_replacements rs) (rs.map mkValidated) := by
  induction rs with
  | nil => simp [validate_replacements]
  | cons r rest ih =>
    rw [validate_replacements, List.map_cons]
    cases hv : validateStep r with
    | none => exact ih.cons _
    | some v =>
      have := (validateStep_some r v hv).1
      subst this
      exact ih.cons₂ _

/-- C3 (counterexample): a candidate supplying `max_occurrences = 0`
passes validation unchanged — the code only upper-clamps with
`min(·, 3)` — so the emitted entry violates the claimed `[1, 3]` range. -/
theorem validate_max_occurrences_counterexample :
    ¬ (∀ e ∈ validate_replacements
        [⟨some "Java", some "Rust", some "", some "r", some 0⟩],
        1 ≤ e.max_occurrences ∧ e.max_occurrences ≤ 3) := by
  intro hall
  have hstep : validateStep ⟨some "Java", some "Rust", some "", some "r", some 0⟩
      = some ⟨"Java", "Rust", "", "r", 0⟩ := by
    have hs : pyStrip "Java" = "Java" := by decide
    have hr : pyStrip "Rust" = "Rust" := by decide
    have l1 : "Java".length = 4 := by decide
    have l2 : "Rust".length = 4 := by decide
    have w1 : (pySplitWs "Java").length = 1 := by decide
    have w2 : (pySplitWs "Rust").length = 1 := by decide
    simp only [validateStep, mkValidated, Option.getD, hs, hr, l1, l2, w1, w2]
    norm_num
    exact fun h => absurd h (by decide)
  have hmem : (⟨"Java", "Rust", "", "r", 0⟩ : ValidatedReplacement)
      ∈ validate_replacements [⟨some "Java", some "Rust", some "", some "r", some 0⟩] := by
    simp [validate_replacements, hstep]
  exact absurd (hall _ hmem).1 (by decide)

/-- C3 (amended): every entry emitted by the validator has
`max_occurrences ≤ 3` (the upper clamp), and the full `[1, 3]` range
holds whenever every candidate's supplied `max_occurrences` is at least
1 (a missing value defaults to 1); zero or negative supplied values pass
through un-clamped below. -/
theorem validate_max_occurrences_amended (rs : List RawReplacement) :
    (∀ e ∈ validate_replacements rs, e.max_occurrences ≤ 3) ∧
    ((∀ r ∈ rs, 1 ≤ r.max_occurrences.getD 1) →
      ∀ e ∈ validate_replacements rs,
        1 ≤ e.max_occurrences ∧ e.max_occurrences ≤ 3) := by
  constructor
  · intro e he
    obtain ⟨r, _, hstep⟩ := validate_mem rs e he
    have := (validateStep_some r e hstep).1
    subst this
    exact min_le_right _ _
  · intro hall e he
    obtain ⟨r, hr, hstep⟩ := validate_mem rs e he
    have := (validateStep_some r e hstep).1
    subst this
    exact ⟨le_min (hall r hr) (by norm_num), min_le_right _ _⟩

/-- Witness for C3 (amended): a candidate supplying `max_occurrences = 5`
is emitted with the value clamped to 3, inside `[1, 3]`. -/
theorem validate_max_occurrences_amended_witness :
    1 ≤ (⟨"Java", "Rust", "", "r", 3⟩ : ValidatedReplacement).max_occurrences ∧
    (⟨"Java", "Rust", "", "r", 3⟩ : ValidatedReplacement).max_occurrences ≤ 3 := by
  have hstep : validateStep ⟨some "Java", some "Rust", some "", some "r", some 5⟩
      = some ⟨"Java", "Rust", "", "r", 3⟩ := by
    have hs : pyStrip "Java" = "Java" := by decide
    have hr : pyStrip "Rust" = "Rust" := by decide
    have l1 : "Java".length = 4 := by decide
    have l2 : "Rust".length = 4 := by decide
    have w1 : (pySplitWs "Java").length = 1 := by decide
    have w2 : (pySplitWs "Rust").length = 1 := by decide
    simp only [validateStep, mkValidated, Option.getD, hs, hr, l1, l2, w1, w2]
    norm_num
    exact fun h => absurd h (by decide)
  have hmem : (⟨"Java", "Rust", "", "r", 3⟩ : ValidatedReplacement)
      ∈ validate_replacements [⟨some "Java", some "Rust", some "", some "r", some 5⟩] := by
    simp [validate_replacements, hstep]
  exact (validate_max_occurrences_amended
    [⟨some "Java", some "Rust", some "", some "r", some 5⟩]).2
    (by intro r hr; rcases List.mem_singleton.mp hr with rfl; norm_num) _ hmem

/-- C6: every entry emitted by the validator has non-empty stripped
`original` and `replacement`, a length ratio in `[0.5, 2.0]`, and at
most 6 words on each side; the emitted list is a sublist (in order) of
the per-candidate entry projections, so input order is preserved; and
the list `suggest_replacements` hands back to its caller has at most 10
entries. -/
theorem validate_structural_constraints (rs : List RawReplacement) :
    (∀ e ∈ validate_replacements rs,
      e.original ≠ "" ∧ e.replacement ≠ "" ∧
      (1 / 2 : ℚ) ≤ (e.replacement.length : ℚ) / (e.original.length : ℚ) ∧
      (e.replacement.length : ℚ) / (e.original.length : ℚ) ≤ 2 ∧
      max (pySplitWs e.original).length (pySplitWs e.replacement).length ≤ 6) ∧
    List.Sublist (validate_replacements rs) (rs.map mkValidated) ∧
    (suggest_replacements_validated rs).length ≤ 10 := by
  refine ⟨?_, validate_sublist rs, ?_⟩
  · intro e he
    obtain ⟨r, _, hstep⟩ := validate_mem rs e he
    obtain ⟨heq, h1, h2, h3, h4, h5⟩ := validateStep_some r e hstep
    subst heq
    exact ⟨h1, h2, h3, h4, h5⟩
  · simp only [suggest_replacements_validated, List.length_take]
    omega

/-- Witness for C6: the structural constraints hold on the concrete
entry the validator emits for the candidate `Java → Rust`. -/
theorem validate_structural_constraints_witness :
    (⟨"Java", "Rust", "", "r", 1⟩ : ValidatedReplacement).original ≠ "" ∧
    (⟨"Java", "Rust", "", "r", 1⟩ : ValidatedReplacement).replacement ≠ "" ∧
    (1 / 2 : ℚ) ≤
      ((⟨"Java", "Rust", "", "r", 1⟩ : ValidatedReplacement).replacement.length : ℚ) /
      ((⟨"Java", "Rust", "", "r", 1⟩ : ValidatedReplacement).original.length : ℚ) ∧
    ((⟨"Java", "Rust", "", "r", 1⟩ : ValidatedReplacement).replacement.length : ℚ) /
      ((⟨"Java", "Rust", "", "r", 1⟩ : ValidatedReplacement).original.length : ℚ) ≤ 2 ∧
    max (pySplitWs (⟨"Java", "Rust", "", "r", 1⟩ : ValidatedReplacement).original).length
      (pySplitWs (⟨"Java", "Rust", "", "r", 1⟩ : ValidatedReplacement).replacement).length
      ≤ 6 := by
  have hstep : validateStep ⟨some "Java", some "Rust", some "", some "r", some 1⟩
      = some ⟨"Java", "Rust", "", "r", 1⟩ := by
    have hs : pyStrip "Java" = "Java" := by decide
    have hr : pyStrip "Rust" = "Rust" := by decide
    have l1 : "Java".length = 4 := by decide
    have l2 : "Rust".length = 4 := by decide
    have w1 : (pySplitWs "Java").length = 1 := by decide
    have w2 : (pySplitWs "Rust").length = 1 := by decide
    simp only [validateStep, mkValidated, Option.getD, hs, hr, l1, l2, w1, w2]
    norm_num
    exact fun h => absurd h (by decide)
  have hmem : (⟨"Java", "Rust", "", "r", 1⟩ : ValidatedReplacement)
      ∈ validate_replacements [⟨some "Java", some "Rust", some "", some "r", some 1⟩] := by
    simp [validate_replacements, hstep]
  exact (validate_structural_constraints
    [⟨some "Java", some "Rust", some "", some "r", some 1⟩]).1 _ hmem

/-! ## Lemmas about the document mutator -/

theorem search_for_length (p : Page) (orig : String) :
    (p.search_for orig).length = countOccs (pageText p) orig := by
  unfold Page.search_for countOccs
  rw [List.length_map]

theorem search_for_eq_nil (p : Page) (orig : String)
    (h : countOccs (pageText p) orig = 0) : p.search_for orig = [] := by
  unfold countOccs at h
  unfold Page.search_for
  rw [List.length_eq_zero.mp h]
  rfl

theorem applyOnPage_spec (orig new_text : String) (maxOcc : Int) (pageNum : Nat) :
    ∀ (inst : List Rect) (page : Page) (count : Nat) (recs : List MutationRecord),
      (applyOnPage orig new_text maxOcc pageNum page inst count recs).2.1
        = count + min inst.length (maxOcc.toNat - count) ∧
      ∃ newRecs : List MutationRecord,
        (applyOnPage orig new_text maxOcc pageNum page inst count recs).2.2
          = recs ++ newRecs ∧
        newRecs.length = min inst.length (maxOcc.toNat - count) := by
  intro inst
  induction inst with
  | nil =>
    intro page count recs
    refine ⟨by simp [applyOnPage], [], by simp [applyOnPage], by simp⟩
  | cons rect rest ih =>
    intro page count recs
    by_cases hc : (count : Int) ≥ maxOcc
    · have hM : maxOcc.toNat ≤ count := by omega
      refine ⟨?_, [], ?_, ?_⟩
      · simp [applyOnPage, hc]
      · simp [applyOnPage, hc]
      · simp only [List.length_nil]; omega
    · have hlt : count < maxOcc.toNat := by omega
      simp only [applyOnPage, hc, if_false]
      obtain ⟨h1, nr, h2, h3⟩ :=
        ih _ (count + 1) (recs ++ [⟨pageNum, orig, new_text, rect⟩])
      refine ⟨?_, [⟨pageNum, orig, new_text, rect⟩] ++ nr, ?_, ?_⟩
      · rw [h1]; simp only [List.length_cons]; omega
      · rw [h2, List.append_assoc]
      · simp only [List.length_append, List.length_cons, List.length_nil, h3]
        omega

theorem docOccurrences_cons (p : Page) (rest : List Page) (orig : String) :
    docOccurrences (p :: rest) orig
      = countOccs (pageText p) orig + docOccurrences rest orig := by
  simp [docOccurrences]

theorem applyOnPages_spec (orig new_text : String) (maxOcc : Int) :
    ∀ (pages : List Page) (pageNum count : Nat) (recs : List MutationRecord),
      (applyOnPages orig new_text maxOcc pages pageNum count recs).1.length
        = pages.length ∧
      (applyOnPages orig new_text maxOcc pages pageNum count recs).2.1
        = count + min (docOccurrences pages orig) (maxOcc.toNat - count) ∧
      ∃ newRecs : List MutationRecord,
        (applyOnPages orig new_text maxOcc pages pageNum count recs).2.2
          = recs ++ newRecs ∧
        newRecs.length = min (docOccurrences pages orig) (maxOcc.toNat - count) := by
  intro pages
  induction pages with
  | nil =>
    intro pageNum count recs
    refine ⟨by simp [applyOnPages], by simp [applyOnPages, docOccurrences], [],
      by simp [applyOnPages], by simp [docOccurrences]⟩
  | cons p rest ih =>
    intro pageNum count recs
    simp only [applyOnPages]
    obtain ⟨hp1, np, hp2, hp3⟩ :=
      applyOnPage_spec orig new_text maxOcc pageNum (p.search_for orig) p count recs
    obtain ⟨hr0, hr1, nr, hr2, hr3⟩ := ih (pageNum + 1)
      (applyOnPage orig new_text maxOcc pageNum p (p.search_for orig) count recs).2.1
      (applyOnPage orig new_text maxOcc pageNum p (p.search_for orig) count recs).2.2
    rw [search_for_length] at hp1 hp3
    refine ⟨by simp [hr0], ?_, np ++ nr, ?_, ?_⟩
    · rw [hr1, hp1, docOccurrences_cons]
      omega
    · rw [hr2, hp2, List.append_assoc]
    · rw [List.length_append, hp3, hr3, hp1, docOccurrences_cons]
      omega

theorem applyOnPages_zero (orig new_text : String) (maxOcc : Int) :
    ∀ (pages : List Page) (pageNum count : Nat) (recs : List MutationRecord),
      docOccurrences pages orig = 0 →
      applyOnPages orig new_text maxOcc pages pageNum count recs
        = (pages, count, recs) := by
  intro pages
  induction pages with
  | nil => intro pageNum count recs _; rfl
  | cons p rest ih =>
    intro pageNum count recs h0
    rw [docOccurrences_cons] at h0
    have hp : countOccs (pageText p) orig = 0 := by omega
    have hrest : docOccurrences rest orig = 0 := by omega
    simp only [applyOnPages, search_for_eq_nil p orig hp, applyOnPage,
      ih (pageNum + 1) count recs hrest]

theorem apply_replacements_invariant :
    ∀ (rs : List Replacement) (st : PDFEditorState),
      (apply_replacements st rs).doc.length = st.doc.length ∧
      (apply_replacements st rs).original_page_count = st.original_page_count := by
  intro rs
  induction rs with
  | nil => intro st; exact ⟨rfl, rfl⟩
  | cons r rest ih =>
    intro st
    rw [apply_replacements]
    have hsingle : (apply_single_replacement st r).1.doc.length = st.doc.length ∧
        (apply_single_replacement st r).1.original_page_count
          = st.original_page_count := by
      unfold apply_single_replacement
      exact ⟨(applyOnPages_spec r.original r.replacement r.max_occurrences
        st.doc 0 0 st.replacements_applied).1, rfl⟩
    have h := ih (apply_single_replacement st r).1
    exact ⟨h.1.trans hsingle.1, h.2.trans hsingle.2⟩

/-! ## Claims about the document mutator -/

/-- C1: for every input document and every list of replacements,
`apply_replacements` leaves the page count unchanged, and the
`validate_output` report's `page_count_unchanged` field is true. -/
theorem apply_replacements_page_count (doc : List Page) (rs : List Replacement) :
    (apply_replacements (mkEditor doc) rs).doc.length = doc.length ∧
    (validate_output (apply_replacements (mkEditor doc) rs)).page_count_unchanged
      = true := by
  have h := apply_replacements_invariant rs (mkEditor doc)
  have hdoc : (apply_replacements (mkEditor doc) rs).doc.length = doc.length := h.1
  have horig : (apply_replacements (mkEditor doc) rs).original_page_count
      = doc.length := h.2
  refine ⟨hdoc, ?_⟩
  simp [validate_output, hdoc, horig]

theorem apply_single_min_count (doc : List Page) (r : Replacement) :
    (apply_single_replacement (mkEditor doc) r).2.1
      = min (docOccurrences doc r.original) r.max_occurrences.toNat ∧
    (apply_single_replacement (mkEditor doc) r).1.replacements_applied.length
      = min (docOccurrences doc r.original) r.max_occurrences.toNat := by
  obtain ⟨_, hcount, nr, hrecs, hlen⟩ :=
    applyOnPages_spec r.original r.replacement r.max_occurrences doc 0 0 []
  have e1 : (apply_single_replacement (mkEditor doc) r).2.1
      = (applyOnPages r.original r.replacement r.max_occurrences doc 0 0 []).2.1 :=
    rfl
  have e2 : (apply_single_replacement (mkEditor doc) r).1.replacements_applied
      = (applyOnPages r.original r.replacement r.max_occurrences doc 0 0 []).2.2 :=
    rfl
  rw [e1, e2, hcount, hrecs]
  constructor
  · omega
  · simp only [List.nil_append, hlen]
    omega

/-- C4: the occurrence limit is shared across the whole document: if the
document contains exactly `N ≥ 1` literal occurrences of the
replacement's original text across its pages and `max_occurrences = 1`,
applying the single replacement replaces exactly one occurrence and
appends exactly one mutation record, even when `N > 1`. -/
theorem apply_single_shared_limit (doc : List Page) (r : Replacement) (N : Nat)
    (hmax : r.max_occurrences = 1) (hN : docOccurrences doc r.original = N)
    (h1 : 1 ≤ N) :
    (apply_single_replacement (mkEditor doc) r).2.1 = 1 ∧
    (apply_single_replacement (mkEditor doc) r).1.replacements_applied.length
      = 1 := by
  have h := apply_single_min_count doc r
  rw [hN, hmax] at h
  simp only [Int.toNat_one] at h
  omega

/-- Witness for C4: a two-page document with one `"Java"` on each page
(`N = 2`) and `max_occurrences = 1` yields exactly one mutation record. -/
theorem apply_single_shared_limit_witness :
    (apply_single_replacement (mkEditor
      [⟨[⟨"Java x", ⟨0, 0, 10, 1⟩, "Arial", 11, 0, 0⟩], [], []⟩,
       ⟨[⟨"y Java", ⟨0, 0, 10, 1⟩, "Arial", 11, 0, 0⟩], [], []⟩])
      ⟨"Java", "Python", "", 1, false⟩).2.1 = 1 ∧
    (apply_single_replacement (mkEditor
      [⟨[⟨"Java x", ⟨0, 0, 10, 1⟩, "Arial", 11, 0, 0⟩], [], []⟩,
       ⟨[⟨"y Java", ⟨0, 0, 10, 1⟩, "Arial", 11, 0, 0⟩], [], []⟩])
      ⟨"Java", "Python", "", 1, false⟩).1.replacements_applied.length = 1 :=
  apply_single_shared_limit _ _ 2 rfl (by decide) (by decide)

/-- C9: a replacement whose original text occurs nowhere in the document
is a silent no-op: zero occurrences replaced, the document and the audit
list unchanged, the `applied` flag false, and the remaining replacements
of the batch still processed. -/
theorem apply_single_zero_occurrences (st : PDFEditorState) (r : Replacement)
    (rest : List Replacement) (h0 : docOccurrences st.doc r.original = 0) :
    (apply_single_replacement st r).2.1 = 0 ∧
    (apply_single_replacement st r).1.doc = st.doc ∧
    (apply_single_replacement st r).1.replacements_applied
      = st.replacements_applied ∧
    (apply_single_replacement st r).2.2.applied = false ∧
    apply_replacements st (r :: rest)
      = apply_replacements (apply_single_replacement st r).1 rest := by
  have hz := applyOnPages_zero r.original r.replacement r.max_occurrences
    st.doc 0 0 st.replacements_applied h0
  refine ⟨?_, ?_, ?_, ?_, rfl⟩ <;> simp [apply_single_replacement, hz]

/-- Witness for C9: applying `Java → Python` to a one-page document whose
text is `"abc"` is a silent no-op. -/
theorem apply_single_zero_occurrences_witness :
    (apply_single_replacement
      ⟨[⟨[⟨"abc", ⟨0, 0, 3, 1⟩, "Arial", 11, 0, 0⟩], [], []⟩], 1, []⟩
      ⟨"Java", "Python", "", 1, false⟩).2.1 = 0 ∧
    (apply_single_replacement
      ⟨[⟨[⟨"abc", ⟨0, 0, 3, 1⟩, "Arial", 11, 0, 0⟩], [], []⟩], 1, []⟩
      ⟨"Java", "Python", "", 1, false⟩).1.doc
      = (⟨[⟨[⟨"abc", ⟨0, 0, 3, 1⟩, "Arial", 11, 0, 0⟩], [], []⟩], 1, []⟩
          : PDFEditorState).doc ∧
    (apply_single_replacement
      ⟨[⟨[⟨"abc", ⟨0, 0, 3, 1⟩, "Arial", 11, 0, 0⟩], [], []⟩], 1, []⟩
      ⟨"Java", "Python", "", 1, false⟩).1.replacements_applied
      = (⟨[⟨[⟨"abc", ⟨0, 0, 3, 1⟩, "Arial", 11, 0, 0⟩], [], []⟩], 1, []⟩
          : PDFEditorState).replacements_applied ∧
    (apply_single_replacement
      ⟨[⟨[⟨"abc", ⟨0, 0, 3, 1⟩, "Arial", 11, 0, 0⟩], [], []⟩], 1, []⟩
      ⟨"Java", "Python", "", 1, false⟩).2.2.applied = false ∧
    apply_replacements
      ⟨[⟨[⟨"abc", ⟨0, 0, 3, 1⟩, "Arial", 11, 0, 0⟩], [], []⟩], 1, []⟩
      (⟨"Java", "Python", "", 1, false⟩ :: [])
      = apply_replacements (apply_single_replacement
          ⟨[⟨[⟨"abc", ⟨0, 0, 3, 1⟩, "Arial", 11, 0, 0⟩], [], []⟩], 1, []⟩
          ⟨"Java", "Python", "", 1, false⟩).1 [] :=
  apply_single_zero_occurrences _ _ _ (by decide)

/-- C10: `preview_text_diff` resets the occurrence counter on every page
while `_apply_single_replacement` shares it across the document: on a
two-page document with one occurrence of the original text per page and
`max_occurrences = 1`, the mutation pass replaces exactly one occurrence
(one mutation record), while the preview substitutes on both pages —
its modified text is the per-page first-occurrence replacement of both
pages, each differing from that page's original text. -/
theorem preview_counter_resets_per_page (p1 p2 : Page) (r : Replacement)
    (hmax : r.max_occurrences = 1)
    (hc1 : countOccs (pageText p1) r.original = 1)
    (hc2 : countOccs (pageText p2) r.original = 1)
    (hne : r.original ≠ r.replacement) :
    (apply_single_replacement (mkEditor [p1, p2]) r).2.1 = 1 ∧
    (apply_single_replacement (mkEditor [p1, p2]) r).1.replacements_applied.length
      = 1 ∧
    (preview_text_diff (mkEditor [p1, p2]) [r]).2
      = replaceFirst (pageText p1) r.original r.replacement
        ++ replaceFirst (pageText p2) r.original r.replacement ∧
    replaceFirst (pageText p1) r.original r.replacement ≠ pageText p1 ∧
    replaceFirst (pageText p2) r.original r.replacement ≠ pageText p2 := by
  have hN : docOccurrences [p1, p2] r.original = 2 := by
    simp [docOccurrences, hc1, hc2]
  have h12 : (apply_single_replacement (mkEditor [p1, p2]) r).2.1 = 1 ∧
      (apply_single_replacement (mkEditor [p1, p2]) r).1.replacements_applied.length
        = 1 := by
    have h := apply_single_min_count [p1, p2] r
    rw [hN, hmax] at h
    simp only [Int.toNat_one] at h
    omega
  have hcont1 : pyContains (pageText p1) r.original = true :=
    countOccs_pos_pyContains _ _ (by omega)
  have hcont2 : pyContains (pageText p2) r.original = true :=
    countOccs_pos_pyContains _ _ (by omega)
  refine ⟨h12.1, h12.2, ?_, ?_, ?_⟩
  · simp only [preview_text_diff, mkEditor, List.foldl_cons, List.foldl_nil,
      previewOnePage, hmax, Int.toNat_one, previewLoop, hcont1, hcont2, if_true]
    apply String.ext
    simp [String.data_append]
  · exact replaceFirst_ne _ _ _ (by omega) hne
  · exact replaceFirst_ne _ _ _ (by omega) hne

/-- Witness for C10: on the two-page document with page texts `"Java x"`
and `"y Java"`, applying `Java → Python` with `max_occurrences = 1`
produces one mutation record while the preview substitutes on both
pages. -/
theorem preview_counter_resets_per_page_witness :
    (apply_single_replacement (mkEditor
      [⟨[⟨"Java a", ⟨0, 0, 10, 1⟩, "Arial", 11, 0, 0⟩], [], []⟩,
       ⟨[⟨"b Java", ⟨0, 0, 10, 1⟩, "Arial", 11, 0, 0⟩], [], []⟩])
      ⟨"Java", "Python", "", 1, false⟩).2.1 = 1 ∧
    (apply_single_replacement (mkEditor
      [⟨[⟨"Java a", ⟨0, 0, 10, 1⟩, "Arial", 11, 0, 0⟩], [], []⟩,
       ⟨[⟨"b Java", ⟨0, 0, 10, 1⟩, "Arial", 11, 0, 0⟩], [], []⟩])
      ⟨"Java", "Python", "", 1, false⟩).1.replacements_applied.length = 1 ∧
    (preview_text_diff (mkEditor
      [⟨[⟨"Java a", ⟨0, 0, 10, 1⟩, "Arial", 11, 0, 0⟩], [], []⟩,
       ⟨[⟨"b Java", ⟨0, 0, 10, 1⟩, "Arial", 11, 0, 0⟩], [], []⟩])
      [⟨"Java", "Python", "", 1, false⟩]).2
      = replaceFirst
          (pageText ⟨[⟨"Java a", ⟨0, 0, 10, 1⟩, "Arial", 11, 0, 0⟩], [], []⟩)
          "Java" "Python"
        ++ replaceFirst
          (pageText ⟨[⟨"b Java", ⟨0, 0, 10, 1⟩, "Arial", 11, 0, 0⟩], [], []⟩)
          "Java" "Python" ∧
    replaceFirst
        (pageText ⟨[⟨"Java a", ⟨0, 0, 10, 1⟩, "Arial", 11, 0, 0⟩], [], []⟩)
        "Java" "Python"
      ≠ pageText ⟨[⟨"Java a", ⟨0, 0, 10, 1⟩, "Arial", 11, 0, 0⟩], [], []⟩ ∧
    replaceFirst
        (pageText ⟨[⟨"b Java", ⟨0, 0, 10, 1⟩, "Arial", 11, 0, 0⟩], [], []⟩)
        "Java" "Python"
      ≠ pageText ⟨[⟨"b Java", ⟨0, 0, 10, 1⟩, "Arial", 11, 0, 0⟩], [], []⟩ :=
  preview_counter_resets_per_page _ _ _ rfl (by decide) (by decide) (by decide)
